import Mathlib

/-!
Verification of the secure persistence subsystem of the game-macro
assistant: the AES-256-GCM encryption service, the Fernet-based
`MacroFileManager` with its per-path password-attempt lockout, the
file-system repository, and the generational `BackupManager`.

Bytes are modelled as `Nat` entries of `List Nat`; filesystem paths as a
directory-component list plus a file name; the filesystem itself as an
association list from paths to contents.  The external cryptographic
primitives (PBKDF2, AES-GCM, Fernet) and the `json` codec live outside the
repository, so they are modelled from the spec as idealized deterministic
primitives; everything written in the repository itself (envelope layout,
size checks, error classification, attempt counting, backup naming,
globbing, timestamp parsing, pruning) is translated directly from the
Python source.
-/

set_option autoImplicit false

namespace GameMacro

/-! ### Strings as byte material -/

/-- Base used to pack characters injectively into one natural number:
`2 ^ 21`, strictly larger than every Unicode scalar value. -/
def charBase : Nat := 2097152

/-- Pack a character list into a single natural number, least significant
character first, with digits shifted by one so that the empty list is
distinguishable. -/
def packChars : List Char → Nat
  | [] => 0
  | c :: cs => (c.toNat + 1) + charBase * packChars cs

/-- Pack a whole string into one natural number, injectively. -/
def strToNat (s : String) : Nat := packChars s.toList

theorem char_toNat_lt (c : Char) : c.toNat < 1114112 := by
  have h := c.valid
  have h2 : c.toNat = c.val.toNat := rfl
  rcases h with h | h
  · omega
  · omega

theorem char_toNat_injective {c c' : Char} (h : c.toNat = c'.toNat) : c = c' := by
  have := congrArg Char.ofNat h
  rwa [Char.ofNat_toNat, Char.ofNat_toNat] at this

theorem packChars_injective : ∀ l1 l2 : List Char, packChars l1 = packChars l2 → l1 = l2 := by
  intro l1
  induction l1 with
  | nil =>
    intro l2 h
    cases l2 with
    | nil => rfl
    | cons c cs =>
      exfalso
      simp only [packChars] at h
      omega
  | cons c cs ih =>
    intro l2 h
    cases l2 with
    | nil =>
      exfalso
      simp only [packChars] at h
      omega
    | cons c' cs' =>
      simp only [packChars, charBase] at h
      have hc := char_toNat_lt c
      have hc' := char_toNat_lt c'
      have heq : c.toNat = c'.toNat ∧ packChars cs = packChars cs' := by
        constructor <;> omega
      have := char_toNat_injective heq.1
      rw [this, ih cs' heq.2]

theorem strToNat_injective {s1 s2 : String} (h : strToNat s1 = strToNat s2) : s1 = s2 := by
  have hl : s1.toList = s2.toList := packChars_injective _ _ h
  cases s1; cases s2; simp_all [String.toList]

/-! ### Idealized cryptographic primitives

The repository calls the `cryptography` package (PBKDF2HMAC, AESGCM,
Fernet) and never implements these primitives itself, so they are
modelled from the spec. -/

/-- Modelled from the spec: PBKDF2-HMAC-SHA256 over `(password, salt)`
("derives a 32-byte key via a deterministic password-based KDF").  The
idealization keeps the two defining properties used by the spec:
determinism, and collision-freeness of the derived key across distinct
passwords for a fixed salt. -/
def pbkdf2Key (password : String) (salt : List Nat) : List Nat :=
  strToNat password :: salt

/-- AES-GCM authentication-tag length in bytes. -/
def TAG_SIZE : Nat := 16

/-- Modelled from the spec: the AES-256-GCM authentication tag, a
16-byte value determined by key, nonce and payload; two different keys
never authenticate the same (nonce, payload) pair (ideal, collision-free
tag). -/
def gcmTag (key nonce payload : List Nat) : List Nat :=
  List.replicate (TAG_SIZE - 1) 0 ++ [Nat.pair (key.headD 0) (Nat.pair nonce.sum payload.sum)]

/-- Modelled from the spec: AES-256-GCM encryption; the ciphertext is the
payload followed by the authentication tag ("ciphertext includes the
authentication tag"; confidentiality is irrelevant to the verified
properties, so the idealization keeps the payload in clear). -/
def aesgcmEncrypt (key nonce payload : List Nat) : List Nat :=
  payload ++ gcmTag key nonce payload

/-- Modelled from the spec: AES-256-GCM decryption — strip the trailing
tag and verify it against the key; `none` is the `InvalidTag` outcome. -/
def aesgcmDecrypt (key nonce ciphertext : List Nat) : Option (List Nat) :=
  if ciphertext.length < TAG_SIZE then none
  else
    let payload := ciphertext.take (ciphertext.length - TAG_SIZE)
    let tag := ciphertext.drop (ciphertext.length - TAG_SIZE)
    if tag = gcmTag key nonce payload then some payload else none

theorem gcmTag_length (key nonce payload : List Nat) :
    (gcmTag key nonce payload).length = TAG_SIZE := by
  simp [gcmTag, TAG_SIZE]

theorem take_append_eq {α : Type} {l1 l2 : List α} {n : Nat} (h : l1.length = n) :
    (l1 ++ l2).take n = l1 := by
  subst h; exact List.take_left l1 l2

theorem drop_append_eq {α : Type} {l1 l2 : List α} {n : Nat} (h : l1.length = n) :
    (l1 ++ l2).drop n = l2 := by
  subst h; exact List.drop_left l1 l2

theorem aesgcmDecrypt_encrypt (key nonce payload : List Nat) :
    aesgcmDecrypt key nonce (aesgcmEncrypt key nonce payload) = some payload := by
  have hlen : (aesgcmEncrypt key nonce payload).length = payload.length + TAG_SIZE := by
    simp [aesgcmEncrypt, gcmTag_length]
  have hsub : (aesgcmEncrypt key nonce payload).length - TAG_SIZE = payload.length := by
    omega
  have hnot : ¬ (aesgcmEncrypt key nonce payload).length < TAG_SIZE := by omega
  simp only [aesgcmDecrypt, hnot, if_false, hsub]
  rw [show aesgcmEncrypt key nonce payload = payload ++ gcmTag key nonce payload from rfl]
  rw [take_append_eq rfl, drop_append_eq rfl]
  simp

theorem aesgcmDecrypt_wrong_key (key key' nonce payload : List Nat)
    (h : key'.headD 0 ≠ key.headD 0) :
    aesgcmDecrypt key' nonce (aesgcmEncrypt key nonce payload) = none := by
  have hlen : (aesgcmEncrypt key nonce payload).length = payload.length + TAG_SIZE := by
    simp [aesgcmEncrypt, gcmTag_length]
  have hsub : (aesgcmEncrypt key nonce payload).length - TAG_SIZE = payload.length := by
    omega
  have hnot : ¬ (aesgcmEncrypt key nonce payload).length < TAG_SIZE := by omega
  simp only [aesgcmDecrypt, hnot, if_false, hsub]
  rw [show aesgcmEncrypt key nonce payload = payload ++ gcmTag key nonce payload from rfl]
  rw [take_append_eq rfl, drop_append_eq rfl]
  have htag : gcmTag key nonce payload ≠ gcmTag key' nonce payload := by
    intro he
    simp only [gcmTag] at he
    have := List.append_cancel_left he
    simp only [List.cons.injEq, and_true] at this
    rw [Nat.pair_eq_pair] at this
    exact h this.1.symm
  simp [htag]

/-! ### Records and the `json` codec

The persistence layer treats a record as an opaque JSON-serializable
mapping of string keys to JSON values; nesting only occurs through the
`_metadata` sub-object, whose values are strings. -/

/-- A JSON value as stored in a macro record. -/
inductive JVal where
  | jNull : JVal
  | jBool (b : Bool) : JVal
  | jNum (n : Int) : JVal
  | jStr (s : String) : JVal
  | jMeta (fields : List (String × String)) : JVal
deriving DecidableEq, Repr

/-- A record: a mapping of string keys to JSON values. -/
abbrev Record := List (String × JVal)

/-- Modelled from the spec: serialization of a string inside
`json.dumps` output — length-prefixed character codes. -/
def encStrB (s : String) : List Nat := s.toList.length :: s.toList.map Char.toNat

/-- Inverse of `encStrB`, consuming a prefix of the byte stream. -/
def decStrB : List Nat → Option (String × List Nat)
  | [] => none
  | n :: rest =>
    if n ≤ rest.length then
      some (String.mk ((rest.take n).map Char.ofNat), rest.drop n)
    else none

/-- Injective code for an integer. -/
def encIntB (n : Int) : Nat := if n < 0 then 2 * n.natAbs + 1 else 2 * n.natAbs

/-- Inverse of `encIntB`. -/
def decIntB (k : Nat) : Int := if k % 2 = 1 then -(k / 2 : Nat) else (k / 2 : Nat)

theorem decIntB_encIntB (n : Int) : decIntB (encIntB n) = n := by
  by_cases h : n < 0
  · have h1 : encIntB n = 2 * n.natAbs + 1 := by simp [encIntB, h]
    have h2 : (2 * n.natAbs + 1) % 2 = 1 := by omega
    have h3 : (2 * n.natAbs + 1) / 2 = n.natAbs := by omega
    simp only [decIntB, h1, h2, if_true, h3]
    omega
  · have h1 : encIntB n = 2 * n.natAbs := by simp [encIntB, h]
    have h2 : ¬ (2 * n.natAbs) % 2 = 1 := by omega
    have h3 : (2 * n.natAbs) / 2 = n.natAbs := by omega
    simp only [decIntB, h1, h2, if_false, h3]
    omega

/-- Serialization of the string-valued fields of a `_metadata` object. -/
def encFields : List (String × String) → List Nat
  | [] => []
  | (k, v) :: rest => encStrB k ++ encStrB v ++ encFields rest

/-- Modelled from the spec: `json.dumps` of one JSON value, as a
self-delimiting byte code. -/
def encJVal : JVal → List Nat
  | .jNull => [0]
  | .jBool b => [1, cond b 1 0]
  | .jNum n => [2, encIntB n]
  | .jStr s => 3 :: encStrB s
  | .jMeta fields => 4 :: fields.length :: encFields fields

/-- Decode `count` string-pair fields from the byte stream. -/
def decFields : Nat → List Nat → Option (List (String × String) × List Nat)
  | 0, bytes => some ([], bytes)
  | n + 1, bytes =>
    match decStrB bytes with
    | none => none
    | some (k, rest1) =>
      match decStrB rest1 with
      | none => none
      | some (v, rest2) =>
        match decFields n rest2 with
        | none => none
        | some (fs, rest3) => some ((k, v) :: fs, rest3)

/-- Decode one JSON value from the byte stream. -/
def decJVal : List Nat → Option (JVal × List Nat)
  | 0 :: rest => some (.jNull, rest)
  | 1 :: b :: rest => some (.jBool (b == 1), rest)
  | 2 :: k :: rest => some (.jNum (decIntB k), rest)
  | 3 :: rest => (decStrB rest).map (fun p => (.jStr p.1, p.2))
  | 4 :: n :: rest => (decFields n rest).map (fun p => (.jMeta p.1, p.2))
  | _ => none

/-- Serialization of the entries of a record. -/
def encEntries : Record → List Nat
  | [] => []
  | (k, v) :: rest => encStrB k ++ encJVal v ++ encEntries rest

/-- Modelled from the spec: `json.dumps` — UTF-8 serialization of a
record, here an entry-count-prefixed byte code. -/
def jsonDumps (r : Record) : List Nat := r.length :: encEntries r

/-- Decode `count` record entries from the byte stream. -/
def decEntries : Nat → List Nat → Option (Record × List Nat)
  | 0, bytes => some ([], bytes)
  | n + 1, bytes =>
    match decStrB bytes with
    | none => none
    | some (k, rest1) =>
      match decJVal rest1 with
      | none => none
      | some (v, rest2) =>
        match decEntries n rest2 with
        | none => none
        | some (r, rest3) => some ((k, v) :: r, rest3)

/-- Modelled from the spec: `json.loads` — parses a full byte stream back
into a record, failing on trailing or malformed data. -/
def jsonLoads : List Nat → Option Record
  | [] => none
  | n :: rest =>
    match decEntries n rest with
    | some (r, []) => some r
    | _ => none

theorem string_mk_toList (s : String) : String.mk s.toList = s := by
  cases s; rfl

theorem decStrB_encStrB (s : String) (r : List Nat) :
    decStrB (encStrB s ++ r) = some (s, r) := by
  have hlen : (s.toList.map Char.toNat).length = s.toList.length := by simp
  have hle : s.toList.length ≤ (s.toList.map Char.toNat ++ r).length := by simp
  simp only [encStrB, List.cons_append, decStrB]
  rw [if_pos hle, take_append_eq hlen, drop_append_eq hlen]
  simp [List.map_map, Function.comp_def, Char.ofNat_toNat, string_mk_toList]

theorem decFields_encFields (fs : List (String × String)) (r : List Nat) :
    decFields fs.length (encFields fs ++ r) = some (fs, r) := by
  induction fs generalizing r with
  | nil => simp [decFields, encFields]
  | cons kv rest ih =>
    obtain ⟨k, v⟩ := kv
    simp [encFields, decFields, List.append_assoc, decStrB_encStrB, ih]

theorem decJVal_encJVal (v : JVal) (r : List Nat) :
    decJVal (encJVal v ++ r) = some (v, r) := by
  cases v with
  | jNull => rfl
  | jBool b => cases b <;> rfl
  | jNum n => simp [encJVal, decJVal, decIntB_encIntB]
  | jStr s => simp [encJVal, decJVal, decStrB_encStrB]
  | jMeta fields => simp [encJVal, decJVal, decFields_encFields]

theorem decEntries_encEntries (rec : Record) (r : List Nat) :
    decEntries rec.length (encEntries rec ++ r) = some (rec, r) := by
  induction rec generalizing r with
  | nil => simp [decEntries, encEntries]
  | cons kv rest ih =>
    obtain ⟨k, v⟩ := kv
    simp [encEntries, decEntries, List.append_assoc, decStrB_encStrB, decJVal_encJVal, ih]

theorem jsonLoads_jsonDumps (rec : Record) : jsonLoads (jsonDumps rec) = some rec := by
  have h := decEntries_encEntries rec []
  rw [List.append_nil] at h
  simp [jsonDumps, jsonLoads, h]

/-! ### EncryptionService (src/data/encryption/encryption_service.py)

`encrypt_data` / `decrypt_data` translated from the source; the salt and
nonce are explicit parameters (the source draws them from
`secrets.token_bytes`; the spec names determinism given fixed salt and
nonce as the testability hook). -/

/-- `EncryptionService.SALT_SIZE` (32 bytes). -/
def SALT_SIZE : Nat := 32

/-- `EncryptionService.NONCE_SIZE` (12 bytes for GCM). -/
def NONCE_SIZE : Nat := 12

/-- Error kinds raised by `EncryptionService.decrypt_data`:
`EncryptionError` (the plain base class, which the repository surfaces as
the corrupted-data kind) and its subclass `InvalidPasswordError`. -/
inductive EncErr where
  | encryptionError : EncErr
  | invalidPassword : EncErr
deriving DecidableEq, Repr

/-- `EncryptionService.encrypt_data`: JSON-serialize, derive the key by
PBKDF2 over `(password, salt)`, AES-GCM-encrypt, and return
`salt ++ nonce ++ ciphertext`. -/
def encrypt_data (data : Record) (password : String) (salt nonce : List Nat) : List Nat :=
  let json_data := jsonDumps data
  let key := pbkdf2Key password salt
  let ciphertext := aesgcmEncrypt key nonce json_data
  salt ++ nonce ++ ciphertext

/-- `EncryptionService.decrypt_data`, parameterized by the key-derivation
function so that non-invocation of the KDF on short inputs is expressible
as independence from the `kdf` argument.  Mirrors the source: reject
inputs shorter than `SALT_SIZE + NONCE_SIZE` with the plain
`EncryptionError`, split the envelope at fixed offsets, derive the key,
attempt AES-GCM decryption (`InvalidTag` becomes `InvalidPasswordError`),
then JSON-parse (failure becomes the generic `EncryptionError`). -/
def decrypt_dataWith (kdf : String → List Nat → List Nat)
    (encrypted_data : List Nat) (password : String) : Except EncErr Record :=
  if encrypted_data.length < SALT_SIZE + NONCE_SIZE then .error .encryptionError
  else
    let salt := encrypted_data.take SALT_SIZE
    let nonce := (encrypted_data.drop SALT_SIZE).take NONCE_SIZE
    let ciphertext := encrypted_data.drop (SALT_SIZE + NONCE_SIZE)
    let key := kdf password salt
    match aesgcmDecrypt key nonce ciphertext with
    | none => .error .invalidPassword
    | some json_data =>
      match jsonLoads json_data with
      | some data => .ok data
      | none => .error .encryptionError

/-- `EncryptionService.decrypt_data` with the real key-derivation
function. -/
def decrypt_data (encrypted_data : List Nat) (password : String) : Except EncErr Record :=
  decrypt_dataWith pbkdf2Key encrypted_data password

/-- Splitting an envelope `salt ++ nonce ++ ct` at the fixed offsets
recovers its three components. -/
theorem envelope_split {salt nonce ct : List Nat}
    (hs : salt.length = SALT_SIZE) (hn : nonce.length = NONCE_SIZE) :
    (salt ++ nonce ++ ct).take SALT_SIZE = salt ∧
    ((salt ++ nonce ++ ct).drop SALT_SIZE).take NONCE_SIZE = nonce ∧
    (salt ++ nonce ++ ct).drop (SALT_SIZE + NONCE_SIZE) = ct := by
  refine ⟨?_, ?_, ?_⟩
  · rw [List.append_assoc]
    exact take_append_eq hs
  · rw [List.append_assoc, drop_append_eq hs]
    exact take_append_eq hn
  · exact drop_append_eq (by simp [hs, hn])

/-- An envelope produced by `encrypt_data` passes the minimum-size
check. -/
theorem encrypt_data_length (data : Record) (password : String) (salt nonce : List Nat)
    (hs : salt.length = SALT_SIZE) (hn : nonce.length = NONCE_SIZE) :
    (encrypt_data data password salt nonce).length =
      SALT_SIZE + NONCE_SIZE + (jsonDumps data).length + TAG_SIZE := by
  simp [encrypt_data, aesgcmEncrypt, gcmTag_length, hs, hn]
  omega

/-- Decrypting an envelope produced by `encrypt_data` reduces to AES-GCM
decryption of its ciphertext under the key derived from the decryption
password and the recovered salt. -/
theorem decrypt_of_encrypt (r : Record) (p1 p2 : String) (salt nonce : List Nat)
    (hs : salt.length = SALT_SIZE) (hn : nonce.length = NONCE_SIZE) :
    decrypt_data (encrypt_data r p1 salt nonce) p2 =
      match aesgcmDecrypt (pbkdf2Key p2 salt) nonce
          (aesgcmEncrypt (pbkdf2Key p1 salt) nonce (jsonDumps r)) with
      | none => .error .invalidPassword
      | some json_data =>
        match jsonLoads json_data with
        | some data => .ok data
        | none => .error .encryptionError := by
  have hlen := encrypt_data_length r p1 salt nonce hs hn
  have hnot : ¬ (encrypt_data r p1 salt nonce).length < SALT_SIZE + NONCE_SIZE := by
    rw [hlen]; omega
  have heq : encrypt_data r p1 salt nonce =
      salt ++ nonce ++ aesgcmEncrypt (pbkdf2Key p1 salt) nonce (jsonDumps r) := rfl
  have hsplit := @envelope_split salt nonce
    (aesgcmEncrypt (pbkdf2Key p1 salt) nonce (jsonDumps r)) hs hn
  simp only [decrypt_data, decrypt_dataWith, hnot, if_false]
  rw [heq, hsplit.1, hsplit.2.1, hsplit.2.2]

/-- Claim C3: for every record `r` and password `p` with `len(p) ≥ 8`,
decrypting `encrypt_data r p` with the same password `p` succeeds and
returns a record equal to `r`. -/
theorem c3_round_trip (r : Record) (p : String) (salt nonce : List Nat)
    (hp : 8 ≤ p.length) (hs : salt.length = SALT_SIZE) (hn : nonce.length = NONCE_SIZE) :
    decrypt_data (encrypt_data r p salt nonce) p = .ok r := by
  rw [decrypt_of_encrypt r p p salt nonce hs hn,
    aesgcmDecrypt_encrypt (pbkdf2Key p salt) nonce (jsonDumps r)]
  simp [jsonLoads_jsonDumps]

/-- Witness for C3 at a concrete record, password, salt and nonce. -/
def demoRecord : Record :=
  [("name", .jStr "m1"), ("created_at", .jNum 1700000000), ("operations", .jNull)]

theorem c3_round_trip_witness :
    8 ≤ ("password123" : String).length ∧
    (List.replicate 32 0).length = SALT_SIZE ∧
    (List.replicate 12 0).length = NONCE_SIZE ∧
    decrypt_data
        (encrypt_data demoRecord "password123" (List.replicate 32 0) (List.replicate 12 0))
        "password123" = .ok demoRecord :=
  ⟨by decide, by decide, by decide,
    c3_round_trip demoRecord "password123" (List.replicate 32 0) (List.replicate 12 0)
      (by decide) (by decide) (by decide)⟩

/-- Claim C5: for every record `r` and distinct passwords `p1 ≠ p2` (both
of length at least 8), decrypting `encrypt_data r p1` with `p2` always
fails with the invalid-password error kind. -/
theorem c5_wrong_password (r : Record) (p1 p2 : String) (salt nonce : List Nat)
    (hne : p1 ≠ p2) (h1 : 8 ≤ p1.length) (h2 : 8 ≤ p2.length)
    (hs : salt.length = SALT_SIZE) (hn : nonce.length = NONCE_SIZE) :
    decrypt_data (encrypt_data r p1 salt nonce) p2 = .error .invalidPassword := by
  have hkey : (pbkdf2Key p2 salt).headD 0 ≠ (pbkdf2Key p1 salt).headD 0 := by
    simp only [pbkdf2Key, List.headD_cons]
    intro h
    exact hne (strToNat_injective h).symm
  rw [decrypt_of_encrypt r p1 p2 salt nonce hs hn,
    aesgcmDecrypt_wrong_key (pbkdf2Key p1 salt) (pbkdf2Key p2 salt) nonce (jsonDumps r) hkey]

theorem c5_wrong_password_witness :
    ("password123" : String) ≠ "password456" ∧
    decrypt_data
        (encrypt_data demoRecord "password123" (List.replicate 32 0) (List.replicate 12 0))
        "password456" = .error .invalidPassword :=
  ⟨by decide,
    c5_wrong_password demoRecord "password123" "password456"
      (List.replicate 32 0) (List.replicate 12 0)
      (by decide) (by decide) (by decide) (by decide) (by decide)⟩

/-- Counterexample to claim C4 as stated: a 44-byte input is shorter than
44 bytes plus the 16-byte AEAD tag, yet `decrypt_data` classifies it as
an invalid-password failure (AES-GCM tag verification on an empty
ciphertext), not as the corrupted-data kind, and only inputs shorter than
44 bytes take the fail-fast path. -/
theorem c4_counterexample :
    decrypt_data (List.replicate 44 0) "password123" = .error .invalidPassword ∧
    (List.replicate 44 0).length < SALT_SIZE + NONCE_SIZE + TAG_SIZE ∧
    EncErr.invalidPassword ≠ EncErr.encryptionError :=
  ⟨rfl, by decide, by decide⟩

/-- Claim C4, amended: every byte string shorter than 44 bytes
(`SALT_SIZE + NONCE_SIZE`) is rejected with the corrupted-data error kind
(`EncryptionError`) without invoking the KDF — the outcome is the same
for every key-derivation function — while byte strings of length in
`[44, 44 + TAG_SIZE)` pass the size check and fail AES-GCM tag
verification with the invalid-password kind. -/
theorem c4_min_size_amended (d : List Nat) (p : String) :
    (d.length < SALT_SIZE + NONCE_SIZE →
      ∀ kdf : String → List Nat → List Nat,
        decrypt_dataWith kdf d p = .error .encryptionError) ∧
    (SALT_SIZE + NONCE_SIZE ≤ d.length →
      d.length < SALT_SIZE + NONCE_SIZE + TAG_SIZE →
      decrypt_data d p = .error .invalidPassword) := by
  constructor
  · intro h kdf
    simp [decrypt_dataWith, h]
  · intro hge hlt
    have hct : (d.drop (SALT_SIZE + NONCE_SIZE)).length < TAG_SIZE := by
      rw [List.length_drop]; omega
    have hnone : aesgcmDecrypt (pbkdf2Key p (d.take SALT_SIZE))
        ((d.drop SALT_SIZE).take NONCE_SIZE) (d.drop (SALT_SIZE + NONCE_SIZE)) = none := by
      unfold aesgcmDecrypt
      rw [if_pos hct]
    simp only [decrypt_data, decrypt_dataWith, Nat.not_lt.mpr hge, if_false, hnone]

theorem c4_min_size_witness :
    ([1, 2, 3] : List Nat).length < SALT_SIZE + NONCE_SIZE ∧
    decrypt_dataWith pbkdf2Key [1, 2, 3] "password123" = .error .encryptionError ∧
    SALT_SIZE + NONCE_SIZE ≤ (List.replicate 50 7).length ∧
    (List.replicate 50 7).length < SALT_SIZE + NONCE_SIZE + TAG_SIZE ∧
    decrypt_data (List.replicate 50 7) "password123" = .error .invalidPassword :=
  ⟨by decide,
    (c4_min_size_amended [1, 2, 3] "password123").1 (by decide) pbkdf2Key,
    by decide, by decide,
    (c4_min_size_amended (List.replicate 50 7) "password123").2 (by decide) (by decide)⟩

/-! ### MacroFileManager (src/core/file_encryption.py)

The Fernet-based variant: every failure it raises is a
`PasswordValidationError` in the source, distinguishable by message; the
model separates the messages into constructors (plus `ValueError` from
`save_macro_file`). -/

/-- Failure kinds of `MacroFileManager`, one per distinct raise site. -/
inductive FErr where
  | policy : FErr
  | corrupted : FErr
  | invalidPassword : FErr
  | attemptsExceeded : FErr
  | loadFailed : FErr
  | valueError : FErr
deriving DecidableEq, Repr

/-- Modelled from the spec: the fixed-size header of a Fernet token,
authenticating the key (version, timestamp, IV and HMAC idealized into a
32-byte block whose last entry is determined by the key; distinct keys
never share a header). -/
def fernetHeader (key : List Nat) : List Nat :=
  List.replicate 31 0 ++ [key.headD 0]

/-- Modelled from the spec: `Fernet(key).encrypt` — header followed by
the payload. -/
def fernetEncrypt (key payload : List Nat) : List Nat :=
  fernetHeader key ++ payload

/-- Modelled from the spec: `Fernet(key).decrypt`; `none` is the
`InvalidToken` outcome. -/
def fernetDecrypt (key data : List Nat) : Option (List Nat) :=
  if data.length < 32 then none
  else if data.take 32 = fernetHeader key then some (data.drop 32) else none

/-- `MacroFileManager.encrypt_file`: validate the password, then
`salt ++ Fernet-token` with the key derived from `(password, salt)`; the
16-byte salt is an explicit parameter (drawn from `os.urandom` in the
source). -/
def encrypt_file (password : String) (data : Record) (salt : List Nat) :
    Except FErr (List Nat) :=
  if password.length < 8 then .error .policy
  else .ok (salt ++ fernetEncrypt (pbkdf2Key password salt) (jsonDumps data))

/-- `MacroFileManager.decrypt_file`: validate the password, reject inputs
shorter than 32 bytes as corrupted, split off the 16-byte salt, derive
the key and attempt Fernet decryption (`InvalidToken` becomes the
invalid-password failure, a JSON failure the corrupted-file one). -/
def decrypt_file (password : String) (encrypted_data : List Nat) : Except FErr Record :=
  if password.length < 8 then .error .policy
  else if encrypted_data.length < 32 then .error .corrupted
  else
    let salt := encrypted_data.take 16
    let actual := encrypted_data.drop 16
    let key := pbkdf2Key password salt
    match fernetDecrypt key actual with
    | none => .error .invalidPassword
    | some decrypted =>
      match jsonLoads decrypted with
      | some d => .ok d
      | none => .error .corrupted

/-- The `_password_attempts` dictionary: file path to attempt count. -/
abbrev AttemptMap := List (String × Nat)

/-- `dict.get(path)`. -/
def lookupCount : AttemptMap → String → Option Nat
  | [], _ => none
  | e :: rest, path => if e.1 = path then some e.2 else lookupCount rest path

/-- `dict.get(path, 0)`. -/
def getCount (m : AttemptMap) (path : String) : Nat :=
  (lookupCount m path).getD 0

/-- `dict[path] = n`. -/
def setCount : AttemptMap → String → Nat → AttemptMap
  | [], path, n => [(path, n)]
  | e :: rest, path, n => if e.1 = path then (path, n) :: rest else e :: setCount rest path n

/-- `del dict[path]` (as used by `_reset_password_attempts`). -/
def eraseCount : AttemptMap → String → AttemptMap
  | [], _ => []
  | e :: rest, path => if e.1 = path then eraseCount rest path else e :: eraseCount rest path

/-- `MacroFileManager.load_macro_file`, parameterized by the decryption
function so that the lockout short-circuit's independence from decryption
is expressible.  Mirrors the source: `_check_password_attempts` runs
before the `try` block; a missing file raises the generic load failure
without touching the counter; any `PasswordValidationError` from
decryption increments the counter; success deletes the entry. -/
def load_macro_fileWith (decrypt : String → List Nat → Except FErr Record)
    (m : AttemptMap) (path : String) (fs : String → Option (List Nat))
    (password : String) : Except FErr Record × AttemptMap :=
  if 3 ≤ getCount m path then (.error .attemptsExceeded, m)
  else
    match fs path with
    | none => (.error .loadFailed, m)
    | some bytes =>
      match decrypt password bytes with
      | .ok r => (.ok r, eraseCount m path)
      | .error e => (.error e, setCount m path (getCount m path + 1))

/-- `MacroFileManager.load_macro_file` with the real `decrypt_file`. -/
def load_macro_file : AttemptMap → String → (String → Option (List Nat)) → String →
    Except FErr Record × AttemptMap :=
  load_macro_fileWith decrypt_file

/-- Python's `str.endswith`. -/
def pyEndsWith (s tail : String) : Bool :=
  tail.toList.isSuffixOf s.toList

/-- `MacroFileManager.save_macro_file`: require the `.gma.json` suffix
(else `ValueError`), then encrypt and write; the result carries the
written path and bytes. -/
def save_macro_file (path : String) (password : String) (data : Record)
    (salt : List Nat) : Except FErr (String × List Nat) :=
  if pyEndsWith path ".gma.json" then
    match encrypt_file password data salt with
    | .ok bytes => .ok (path, bytes)
    | .error e => .error e
  else .error .valueError

theorem lookupCount_setCount_self (m : AttemptMap) (path : String) (n : Nat) :
    lookupCount (setCount m path n) path = some n := by
  induction m with
  | nil => simp [setCount, lookupCount]
  | cons e rest ih =>
    by_cases h : e.1 = path
    · simp [setCount, lookupCount, h]
    · simp [setCount, lookupCount, h, ih]

theorem lookupCount_eraseCount_self (m : AttemptMap) (path : String) :
    lookupCount (eraseCount m path) path = none := by
  induction m with
  | nil => simp [eraseCount, lookupCount]
  | cons e rest ih =>
    by_cases h : e.1 = path
    · simp [eraseCount, h, ih]
    · simp [eraseCount, lookupCount, h, ih]

theorem getCount_setCount_self (m : AttemptMap) (path : String) (n : Nat) :
    getCount (setCount m path n) path = n := by
  simp [getCount, lookupCount_setCount_self]

theorem mem_setCount {m : AttemptMap} {k path : String} {c n : Nat}
    (h : (k, c) ∈ setCount m path n) : (k, c) ∈ m ∨ (k = path ∧ c = n) := by
  induction m with
  | nil => simp [setCount] at h; tauto
  | cons e rest ih =>
    by_cases he : e.1 = path
    · rw [setCount, if_pos he] at h
      rcases List.mem_cons.mp h with h | h
      · right; exact ⟨congrArg Prod.fst h, congrArg Prod.snd h⟩
      · left; exact List.mem_cons_of_mem e h
    · rw [setCount, if_neg he] at h
      rcases List.mem_cons.mp h with h | h
      · left; rw [h]; exact List.mem_cons_self e rest
      · rcases ih h with h | h
        · left; exact List.mem_cons_of_mem e h
        · right; exact h

theorem mem_eraseCount {m : AttemptMap} {k path : String} {c : Nat}
    (h : (k, c) ∈ eraseCount m path) : (k, c) ∈ m := by
  induction m with
  | nil => simpa [eraseCount] using h
  | cons e rest ih =>
    by_cases he : e.1 = path
    · rw [eraseCount, if_pos he] at h
      exact List.mem_cons_of_mem e (ih h)
    · rw [eraseCount, if_neg he] at h
      rcases List.mem_cons.mp h with h | h
      · rw [h]; exact List.mem_cons_self e rest
      · exact List.mem_cons_of_mem e (ih h)

/-- Once a path's counter has reached 3, `load_macro_file` fails with the
attempts-exceeded error before consulting the filesystem, the password or
the decryption function, and leaves the counter map unchanged. -/
theorem load_locked (d : String → List Nat → Except FErr Record) (m : AttemptMap)
    (path : String) (fs : String → Option (List Nat)) (password : String)
    (h : 3 ≤ getCount m path) :
    load_macro_fileWith d m path fs password = (.error .attemptsExceeded, m) := by
  rw [load_macro_fileWith, if_pos h]

/-- Below the lockout threshold, a missing file yields the generic load
failure and leaves the counter map unchanged. -/
theorem load_step_none {m : AttemptMap} {path : String}
    {fs : String → Option (List Nat)} {pw : String}
    (hc : ¬ 3 ≤ getCount m path) (hfs : fs path = none) :
    load_macro_file m path fs pw = (.error .loadFailed, m) := by
  rw [load_macro_file, load_macro_fileWith, if_neg hc, hfs]

/-- Below the lockout threshold, a successful decryption returns the
record and deletes the path's counter entry. -/
theorem load_step_ok {m : AttemptMap} {path : String}
    {fs : String → Option (List Nat)} {pw : String} {bytes : List Nat} {r : Record}
    (hc : ¬ 3 ≤ getCount m path) (hfs : fs path = some bytes)
    (hd : decrypt_file pw bytes = .ok r) :
    load_macro_file m path fs pw = (.ok r, eraseCount m path) := by
  rw [load_macro_file, load_macro_fileWith, if_neg hc, hfs]
  show (match decrypt_file pw bytes with
    | .ok r => (Except.ok r, eraseCount m path)
    | .error e => (Except.error e, setCount m path (getCount m path + 1))) =
    (.ok r, eraseCount m path)
  rw [hd]

/-- Below the lockout threshold, a decryption failure re-raises the error
and increments the path's counter. -/
theorem load_step_error {m : AttemptMap} {path : String}
    {fs : String → Option (List Nat)} {pw : String} {bytes : List Nat} {e : FErr}
    (hc : ¬ 3 ≤ getCount m path) (hfs : fs path = some bytes)
    (hd : decrypt_file pw bytes = .error e) :
    load_macro_file m path fs pw = (.error e, setCount m path (getCount m path + 1)) := by
  rw [load_macro_file, load_macro_fileWith, if_neg hc, hfs]
  show (match decrypt_file pw bytes with
    | .ok r => (Except.ok r, eraseCount m path)
    | .error e => (Except.error e, setCount m path (getCount m path + 1))) =
    (.error e, setCount m path (getCount m path + 1))
  rw [hd]

/-- A load that fails with an error other than the lockout error or the
generic load failure must have come from the decryption branch: the
counter for the path was still below 3 and is incremented by one. -/
theorem load_decrypt_error_inv {m : AttemptMap} {path : String}
    {fs : String → Option (List Nat)} {password : String} {e : FErr} {m' : AttemptMap}
    (hne1 : e ≠ FErr.attemptsExceeded) (hne2 : e ≠ FErr.loadFailed)
    (h : load_macro_file m path fs password = (.error e, m')) :
    m' = setCount m path (getCount m path + 1) ∧ getCount m path < 3 := by
  rw [load_macro_file, load_macro_fileWith] at h
  by_cases hc : 3 ≤ getCount m path
  · rw [if_pos hc] at h
    exact absurd (congrArg Prod.fst h).symm (by simp [hne1])
  · rw [if_neg hc] at h
    split at h
    · exact absurd (congrArg Prod.fst h).symm (by simp [hne2])
    · split at h
      · exact absurd (congrArg Prod.fst h).symm (by simp)
      · exact ⟨(congrArg Prod.snd h).symm, by omega⟩

/-- Run a sequence of `load_macro_file` calls on the same path, threading
the attempt map; each call brings its own filesystem view and password. -/
def runLoads (m : AttemptMap) (path : String) :
    List ((String → Option (List Nat)) × String) → List (Except FErr Record) × AttemptMap
  | [] => ([], m)
  | c :: rest =>
    let step := load_macro_file m path c.1 c.2
    let tail := runLoads step.2 path rest
    (step.1 :: tail.1, tail.2)

/-- Claim C2: after three `load_macro_file` calls on the same path that
each fail with the invalid-password (authentication) failure, every
subsequent load call on that path — whatever filesystem contents and
password it supplies, in particular the correct ones — fails with the
attempts-exceeded error, and the short-circuit is independent of the
decryption function (it happens before any decryption is attempted),
leaving the counter map unchanged. -/
theorem c2_lockout (m0 m1 m2 m3 : AttemptMap) (path : String)
    (fs1 fs2 fs3 : String → Option (List Nat)) (p1 p2 p3 : String)
    (h1 : load_macro_file m0 path fs1 p1 = (.error .invalidPassword, m1))
    (h2 : load_macro_file m1 path fs2 p2 = (.error .invalidPassword, m2))
    (h3 : load_macro_file m2 path fs3 p3 = (.error .invalidPassword, m3)) :
    (∀ (d : String → List Nat → Except FErr Record)
        (fs : String → Option (List Nat)) (pw : String),
      load_macro_fileWith d m3 path fs pw = (.error .attemptsExceeded, m3)) ∧
    ∀ calls : List ((String → Option (List Nat)) × String),
      ∀ res ∈ (runLoads m3 path calls).1, res = .error .attemptsExceeded := by
  have e1 := load_decrypt_error_inv (by simp) (by simp) h1
  have e2 := load_decrypt_error_inv (by simp) (by simp) h2
  have e3 := load_decrypt_error_inv (by simp) (by simp) h3
  have g1 : getCount m1 path = getCount m0 path + 1 := by
    rw [e1.1, getCount_setCount_self]
  have g2 : getCount m2 path = getCount m1 path + 1 := by
    rw [e2.1, getCount_setCount_self]
  have g3 : getCount m3 path = getCount m2 path + 1 := by
    rw [e3.1, getCount_setCount_self]
  have hlock : 3 ≤ getCount m3 path := by omega
  refine ⟨fun d fs pw => load_locked d m3 path fs pw hlock, ?_⟩
  intro calls
  induction calls with
  | nil => simp [runLoads]
  | cons c rest ih =>
    intro res hres
    have hstep : load_macro_file m3 path c.1 c.2 = (.error .attemptsExceeded, m3) :=
      load_locked decrypt_file m3 path c.1 c.2 hlock
    rw [runLoads] at hres
    simp only [hstep] at hres
    rcases List.mem_cons.mp hres with h | h
    · exact h
    · exact ih res h

/-- Concrete filesystem for the lockout witness: a single encrypted file
saved under the password `correctpw1`. -/
def demoVault : String → Option (List Nat) :=
  fun _ => some (List.replicate 16 0 ++
    fernetEncrypt (pbkdf2Key "correctpw1" (List.replicate 16 0)) (jsonDumps demoRecord))

theorem c2_lockout_witness :
    load_macro_file [] "m.gma.json" demoVault "wrongpass99" =
      (.error .invalidPassword, [("m.gma.json", 1)]) ∧
    load_macro_file [("m.gma.json", 1)] "m.gma.json" demoVault "wrongpass99" =
      (.error .invalidPassword, [("m.gma.json", 2)]) ∧
    load_macro_file [("m.gma.json", 2)] "m.gma.json" demoVault "wrongpass99" =
      (.error .invalidPassword, [("m.gma.json", 3)]) ∧
    load_macro_fileWith decrypt_file [("m.gma.json", 3)] "m.gma.json" demoVault "correctpw1" =
      (.error .attemptsExceeded, [("m.gma.json", 3)]) := by
  refine ⟨rfl, rfl, rfl, ?_⟩
  exact (c2_lockout [] [("m.gma.json", 1)] [("m.gma.json", 2)] [("m.gma.json", 3)]
    "m.gma.json" demoVault demoVault demoVault
    "wrongpass99" "wrongpass99" "wrongpass99" rfl rfl rfl).1
    decrypt_file demoVault "correctpw1"

/-! ### FileSystemMacroRepository (src/data/repositories/file_system_macro_repository.py) -/

/-- Repository-level error kinds (`RepositoryError`, its subclasses
`InvalidPasswordError` and `CorruptedFileError`, and the re-raised
`FileNotFoundError`). -/
inductive RepoErr where
  | repositoryError : RepoErr
  | invalidPasswordR : RepoErr
  | corruptedFile : RepoErr
  | fileNotFound : RepoErr
deriving DecidableEq, Repr

/-- `dict[k]` lookup on a record. -/
def lookupField : Record → String → Option JVal
  | [], _ => none
  | e :: rest, k => if e.1 = k then some e.2 else lookupField rest k

/-- `dict[k] = v` on a record. -/
def setField : Record → String → JVal → Record
  | [], k, v => [(k, v)]
  | e :: rest, k, v => if e.1 = k then (k, v) :: rest else e :: setField rest k v

/-- `del dict[k]` on a record. -/
def eraseField : Record → String → Record
  | [], _ => []
  | e :: rest, k => if e.1 = k then eraseField rest k else e :: eraseField rest k

/-- The envelope metadata written by `FileSystemMacroRepository.save`. -/
def metadataVal : JVal :=
  .jMeta [("format_version", "1.0"), ("encryption", "AES-256-GCM")]

/-- `MacroRecording.from_dict`, shallowly: the recording is viewed as its
dictionary; the constructor reads `data['name']` and `data['created_at']`
(a missing key raises `KeyError`, which `load` maps to the corrupted-file
error). -/
def macroRecording_from_dict (d : Record) : Option Record :=
  if (lookupField d "name").isSome ∧ (lookupField d "created_at").isSome then some d
  else none

/-- `FileSystemMacroRepository.save`: validate the password (a
`PasswordValidationError` is an `EncryptionError`, which `save` wraps
into the generic `RepositoryError`), add the `_metadata` field, encrypt,
and write; the result carries the written path and bytes.  No check of
the path's suffix is performed. -/
def fsRepo_save (recording : Record) (path : String) (password : String)
    (salt nonce : List Nat) : Except RepoErr (String × List Nat) :=
  if password.length < 8 then .error .repositoryError
  else .ok (path, encrypt_data (setField recording "_metadata" metadataVal) password salt nonce)

/-- `FileSystemMacroRepository.load`: missing file, decryption and
parsing failures mapped exactly as in the source; on success the
`_metadata` key is removed before `MacroRecording.from_dict` runs. -/
def fsRepo_load (fileBytes : Option (List Nat)) (password : String) :
    Except RepoErr Record :=
  match fileBytes with
  | none => .error .fileNotFound
  | some bytes =>
    match decrypt_data bytes password with
    | .error .invalidPassword => .error .invalidPasswordR
    | .error .encryptionError => .error .corruptedFile
    | .ok data =>
      match macroRecording_from_dict (eraseField data "_metadata") with
      | some rec => .ok rec
      | none => .error .corruptedFile

theorem lookupField_setField_self (r : Record) (k : String) (v : JVal) :
    lookupField (setField r k v) k = some v := by
  induction r with
  | nil => simp [setField, lookupField]
  | cons e rest ih =>
    by_cases h : e.1 = k
    · simp [setField, lookupField, h]
    · simp [setField, lookupField, h, ih]

theorem eraseField_of_none {r : Record} {k : String} (h : lookupField r k = none) :
    eraseField r k = r := by
  induction r with
  | nil => rfl
  | cons e rest ih =>
    rw [lookupField] at h
    by_cases he : e.1 = k
    · rw [if_pos he] at h; cases h
    · rw [if_neg he] at h
      rw [eraseField, if_neg he, ih h]

theorem eraseField_setField {r : Record} {k : String} (v : JVal)
    (h : lookupField r k = none) : eraseField (setField r k v) k = r := by
  induction r with
  | nil => simp [setField, eraseField]
  | cons e rest ih =>
    rw [lookupField] at h
    by_cases he : e.1 = k
    · rw [if_pos he] at h; cases h
    · rw [if_neg he] at h
      rw [setField, if_neg he, eraseField, if_neg he, ih h]

/-- Shared with the repository proofs: same-password decryption of an
`encrypt_data` envelope recovers the plaintext record. -/
theorem decrypt_encrypt_same (r : Record) (p : String) (salt nonce : List Nat)
    (hs : salt.length = SALT_SIZE) (hn : nonce.length = NONCE_SIZE) :
    decrypt_data (encrypt_data r p salt nonce) p = .ok r := by
  rw [decrypt_of_encrypt r p p salt nonce hs hn,
    aesgcmDecrypt_encrypt (pbkdf2Key p salt) nonce (jsonDumps r)]
  simp [jsonLoads_jsonDumps]

/-- Claim C6: `save` writes an envelope whose plaintext payload carries
`_metadata = {format_version: "1.0", encryption: "AES-256-GCM"}`; a
successful `load` strips `_metadata` and returns the record; and a
payload without `_metadata` (legacy format) is still parsed and returned
— no failure arises solely from the missing metadata. -/
theorem c6_metadata_round_trip (r : Record) (path : String) (pw : String)
    (salt nonce : List Nat)
    (hp : 8 ≤ pw.length) (hs : salt.length = SALT_SIZE) (hn : nonce.length = NONCE_SIZE)
    (hmeta : lookupField r "_metadata" = none)
    (hname : (lookupField r "name").isSome)
    (hcreated : (lookupField r "created_at").isSome) :
    fsRepo_save r path pw salt nonce =
      .ok (path, encrypt_data (setField r "_metadata" metadataVal) pw salt nonce) ∧
    lookupField (setField r "_metadata" metadataVal) "_metadata" = some metadataVal ∧
    fsRepo_load (some (encrypt_data (setField r "_metadata" metadataVal) pw salt nonce)) pw =
      .ok r ∧
    fsRepo_load (some (encrypt_data r pw salt nonce)) pw = .ok r := by
  have hnotshort : ¬ pw.length < 8 := by omega
  refine ⟨by rw [fsRepo_save, if_neg hnotshort], lookupField_setField_self r _ _, ?_, ?_⟩
  · have herase : eraseField (setField r "_metadata" metadataVal) "_metadata" = r :=
      eraseField_setField metadataVal hmeta
    rw [fsRepo_load, decrypt_encrypt_same _ pw salt nonce hs hn]
    simp [herase, macroRecording_from_dict, hname, hcreated]
  · have herase : eraseField r "_metadata" = r := eraseField_of_none hmeta
    rw [fsRepo_load, decrypt_encrypt_same _ pw salt nonce hs hn]
    simp [herase, macroRecording_from_dict, hname, hcreated]

theorem c6_metadata_round_trip_witness :
    lookupField demoRecord "_metadata" = none ∧
    fsRepo_load
        (some (encrypt_data (setField demoRecord "_metadata" metadataVal) "password123"
          (List.replicate 32 0) (List.replicate 12 0))) "password123" = .ok demoRecord ∧
    fsRepo_load (some (encrypt_data demoRecord "password123"
        (List.replicate 32 0) (List.replicate 12 0))) "password123" = .ok demoRecord :=
  ⟨by decide,
    (c6_metadata_round_trip demoRecord "m1.gma.json" "password123"
      (List.replicate 32 0) (List.replicate 12 0)
      (by decide) (by decide) (by decide) (by decide) (by decide) (by decide)).2.2.1,
    (c6_metadata_round_trip demoRecord "m1.gma.json" "password123"
      (List.replicate 32 0) (List.replicate 12 0)
      (by decide) (by decide) (by decide) (by decide) (by decide) (by decide)).2.2.2⟩

/-- Counterexample to claim C8 as stated: a load attempt with the
too-short password `"short"` fails with the password-policy error — not
an authentication failure — yet the attempt counter for the path is
created with value 1. -/
theorem c8_counterexample :
    load_macro_file [] "m.gma.json" demoVault "short" =
      (.error .policy, [("m.gma.json", 1)]) ∧
    FErr.policy ≠ FErr.invalidPassword :=
  ⟨rfl, by decide⟩

/-- Claim C8, amended: every stored count stays in `[0, 3]`; a path's
entry is created with value 1 on its first failed load whose failure
comes from decryption; the counter is incremented on every
decryption-raised failure — authentication, password-policy and
corrupted-data failures alike, not only authentication failures — and
the entry is removed on a successful unlock. -/
theorem c8_attempt_counter (m : AttemptMap) (path : String)
    (fs : String → Option (List Nat)) (pw : String) :
    ((∀ k c, (k, c) ∈ m → c ≤ 3) →
      ∀ k c, (k, c) ∈ (load_macro_file m path fs pw).2 → c ≤ 3) ∧
    (lookupCount m path = none →
      ∀ e, (load_macro_file m path fs pw).1 = .error e → e ≠ FErr.loadFailed →
        lookupCount (load_macro_file m path fs pw).2 path = some 1) ∧
    (∀ e, (load_macro_file m path fs pw).1 = .error e →
      e ≠ FErr.attemptsExceeded → e ≠ FErr.loadFailed →
      getCount (load_macro_file m path fs pw).2 path = getCount m path + 1) ∧
    (∀ r, (load_macro_file m path fs pw).1 = .ok r →
      lookupCount (load_macro_file m path fs pw).2 path = none) := by
  by_cases hc : 3 ≤ getCount m path
  · have hload : load_macro_file m path fs pw = (.error .attemptsExceeded, m) :=
      load_locked decrypt_file m path fs pw hc
    rw [hload]
    refine ⟨fun hb k c hk => hb k c hk, ?_, ?_, ?_⟩
    · intro hnone e _ _
      exfalso
      simp [getCount, hnone] at hc
    · intro e he hne1 _
      exfalso
      simp only [Except.error.injEq] at he
      exact hne1 he.symm
    · intro r hr
      exact absurd hr (by simp)
  · cases hfs : fs path with
    | none =>
      rw [load_step_none hc hfs]
      refine ⟨fun hb k c hk => hb k c hk, ?_, ?_, ?_⟩
      · intro _ e he hne
        exfalso
        simp only [Except.error.injEq] at he
        exact hne he.symm
      · intro e he _ hne2
        exfalso
        simp only [Except.error.injEq] at he
        exact hne2 he.symm
      · intro r hr
        exact absurd hr (by simp)
    | some bytes =>
      cases hd : decrypt_file pw bytes with
      | ok r =>
        rw [load_step_ok hc hfs hd]
        refine ⟨?_, ?_, ?_, ?_⟩
        · intro hb k c hk
          exact hb k c (mem_eraseCount hk)
        · intro _ e he _
          exact absurd he (by simp)
        · intro e he _ _
          exact absurd he (by simp)
        · intro r2 _
          exact lookupCount_eraseCount_self m path
      | error e2 =>
        rw [load_step_error hc hfs hd]
        refine ⟨?_, ?_, ?_, ?_⟩
        · intro hb k c hk
          rcases mem_setCount hk with h | h
          · exact hb k c h
          · omega
        · intro hnone e _ _
          have h0 : getCount m path = 0 := by simp [getCount, hnone]
          rw [h0]
          exact lookupCount_setCount_self m path 1
        · intro e _ _ _
          exact getCount_setCount_self m path (getCount m path + 1)
        · intro r hr
          exact absurd hr (by simp)

theorem c8_attempt_counter_witness :
    (load_macro_file [("m.gma.json", 1)] "m.gma.json" demoVault "wrongpass99").1 =
      .error .invalidPassword ∧
    getCount (load_macro_file [("m.gma.json", 1)] "m.gma.json" demoVault "wrongpass99").2
        "m.gma.json" =
      getCount [("m.gma.json", 1)] "m.gma.json" + 1 :=
  ⟨rfl,
    (c8_attempt_counter [("m.gma.json", 1)] "m.gma.json" demoVault "wrongpass99").2.2.1
      FErr.invalidPassword rfl (by decide) (by decide)⟩

/-- Counterexample to claim C9 as stated:
`FileSystemMacroRepository.save` performs no suffix validation — saving
to `m1.txt`, which does not end in `.gma.json`, succeeds and writes the
encrypted blob. -/
theorem c9_counterexample :
    (fsRepo_save demoRecord "m1.txt" "password123"
      (List.replicate 32 0) (List.replicate 12 0)).isOk = true ∧
    pyEndsWith "m1.txt" ".gma.json" = false :=
  ⟨rfl, by decide⟩

/-- Claim C9, amended: `MacroFileManager.save_macro_file` rejects every
path not ending in `.gma.json` with `ValueError` before encrypting or
writing anything, and a path carrying the suffix passes this validation;
`FileSystemMacroRepository.save` performs no such check. -/
theorem c9_suffix_validation (path pw : String) (data : Record) (salt : List Nat) :
    (pyEndsWith path ".gma.json" = false →
      save_macro_file path pw data salt = .error .valueError) ∧
    (pyEndsWith path ".gma.json" = true →
      save_macro_file path pw data salt ≠ .error .valueError) := by
  constructor
  · intro h
    simp [save_macro_file, h]
  · intro h
    by_cases hl : pw.length < 8
    · simp [save_macro_file, h, encrypt_file, hl]
    · simp [save_macro_file, h, encrypt_file, hl]

theorem c9_suffix_validation_witness :
    pyEndsWith "m1.txt" ".gma.json" = false ∧
    save_macro_file "m1.txt" "password123" demoRecord (List.replicate 16 0) =
      .error .valueError ∧
    pyEndsWith "m1.gma.json" ".gma.json" = true ∧
    save_macro_file "m1.gma.json" "password123" demoRecord (List.replicate 16 0) ≠
      .error .valueError :=
  ⟨by decide,
    (c9_suffix_validation "m1.txt" "password123" demoRecord (List.replicate 16 0)).1
      (by decide),
    by decide,
    (c9_suffix_validation "m1.gma.json" "password123" demoRecord (List.replicate 16 0)).2
      (by decide)⟩

/-! ### BackupManager (src/data/backup/backup_manager.py)

Paths are a parent-directory component list plus a file name; the
filesystem is an association list from paths to contents in creation
order (directory listings follow this order, the source's unspecified
`glob` order). -/

/-- A filesystem path. -/
structure Pth where
  dir : List String
  name : String
deriving DecidableEq, Repr

/-- `BackupManager._get_backup_directory`: the sibling `.backups`
directory of a file. -/
def backupDirOf (p : Pth) : List String := p.dir ++ [".backups"]

/-- The filesystem as an association list from paths to byte contents. -/
abbrev FileSystem := List (Pth × List Nat)

def getFile : FileSystem → Pth → Option (List Nat)
  | [], _ => none
  | e :: rest, p => if e.1 = p then some e.2 else getFile rest p

def setFile : FileSystem → Pth → List Nat → FileSystem
  | [], p, c => [(p, c)]
  | e :: rest, p, c => if e.1 = p then (p, c) :: rest else e :: setFile rest p c

def removeFile : FileSystem → Pth → FileSystem
  | [], _ => []
  | e :: rest, p => if e.1 = p then removeFile rest p else e :: removeFile rest p

/-- Names of the files in a directory, in filesystem order. -/
def listDir (fs : FileSystem) (d : List String) : List String :=
  (fs.filter (fun e => decide (e.1.dir = d))).map (fun e => e.1.name)

/-- Index of the last `'.'` in a character list (`str.rfind('.')`). -/
def rfindDot (cs : List Char) : Option Nat :=
  match cs.reverse.findIdx? (fun c => c == '.') with
  | none => none
  | some j => some (cs.length - 1 - j)

/-- `PurePath.stem`: the file name minus its last suffix; a name whose
only dot is leading or trailing has no suffix. -/
def pyStem (name : String) : String :=
  let cs := name.toList
  match rfindDot cs with
  | some i => if 0 < i ∧ i < cs.length - 1 then String.mk (cs.take i) else name
  | none => name

/-- Python's `str.split(sep)` for a one-character separator. -/
def pySplit (sep : Char) : List Char → List (List Char)
  | [] => [[]]
  | c :: cs =>
    let r := pySplit sep cs
    if c = sep then [] :: r
    else
      match r with
      | h :: t => (c :: h) :: t
      | [] => [[c]]

def digitsToNat (ds : List Char) : Nat :=
  ds.foldl (fun a c => 10 * a + (c.toNat - 48)) 0

/-- Unsigned decimal-fraction literal: digits with at most one point. -/
def parseUnsigned (cs : List Char) : Option ℚ :=
  match pySplit '.' cs with
  | [ip] => if ip ≠ [] ∧ ip.all Char.isDigit then some (digitsToNat ip : ℚ) else none
  | [ip, fp] =>
    if (ip ≠ [] ∨ fp ≠ []) ∧ ip.all Char.isDigit ∧ fp.all Char.isDigit then
      some ((digitsToNat ip : ℚ) + (digitsToNat fp : ℚ) / ((10 : ℚ) ^ fp.length))
    else none
  | _ => none

/-- Python's `float()` builtin on the numeric strings that can occur in
backup filenames: an optional sign followed by a decimal-fraction
literal.  Like `float()`, it fails on any string containing a character
outside sign, digits and the point (such as the letters of a file
suffix); the spellings `float()` additionally accepts (exponents,
inf/nan, whitespace, underscores) cannot reach this parser, because the
argument is always an underscore-free string ending in `.gma`. -/
def pyFloat (cs : List Char) : Option ℚ :=
  match cs with
  | '+' :: rest => parseUnsigned rest
  | '-' :: rest => (parseUnsigned rest).map (fun q => -q)
  | _ => parseUnsigned cs

/-- `BackupManager._extract_timestamp_from_backup`: split the stem on
`'_'`; require at least three parts with `'backup'` second from the end,
then `float()` the last part (`ValueError` becomes `none`). -/
def extract_timestamp (name : String) : Option ℚ :=
  let parts := pySplit '_' (pyStem name).toList
  match parts.reverse with
  | ts :: prev :: _ :: _ =>
    if prev = "backup".toList then pyFloat ts else none
  | _ => none

/-- Base name shared by `list_backups` and `_generate_backup_path`: strip
a trailing `.gma.json`, else fall back to the stem. -/
def baseNameOf (name : String) : String :=
  let cs := name.toList
  if pyEndsWith name ".gma.json" then String.mk (cs.take (cs.length - 9))
  else pyStem name

/-- fnmatch of the glob pattern `{base}_backup_*.gma.json`. -/
def globMatchB (base : String) (name : String) : Bool :=
  let p := base ++ "_backup_"
  p.toList.isPrefixOf name.toList && pyEndsWith name ".gma.json" &&
    decide (p.length + 9 ≤ name.length)

/-- `BackupInfo`: backup path, parsed timestamp, size (the source's
`created_time` only re-renders the timestamp). -/
structure BackupInfoM where
  path : Pth
  timestamp : ℚ
  size : Nat
deriving DecidableEq, Repr

/-- `BackupManager.list_backups`: glob the `.backups` directory for
`{base}_backup_*.gma.json`, skip entries whose timestamp fails to parse,
and sort by timestamp descending — a stable sort, like Python's, so ties
keep filesystem order; any stable sort computes the same list, and
insertion sort keeps the model kernel-executable. -/
def list_backupsM (fs : FileSystem) (file : Pth) : List BackupInfoM :=
  let bdir := backupDirOf file
  let base := baseNameOf file.name
  let matched := (listDir fs bdir).filter (globMatchB base)
  let infos := matched.filterMap (fun n =>
    match extract_timestamp n with
    | some t =>
      match getFile fs ⟨bdir, n⟩ with
      | some content => some ⟨⟨bdir, n⟩, t, content.length⟩
      | none => none
    | none => none)
  infos.insertionSort (fun a b => b.timestamp ≤ a.timestamp)

/-- `BackupManager._generate_backup_path`'s file name,
`{base}_backup_{timestamp}.gma.json`. -/
def mkBackupName (file : Pth) (now : Nat) : String :=
  baseNameOf file.name ++ "_backup_" ++ toString now ++ ".gma.json"

/-- `BackupManager._generate_backup_path`: inside the sibling `.backups`
directory. -/
def mkBackupPath (file : Pth) (now : Nat) : Pth :=
  ⟨backupDirOf file, mkBackupName file now⟩

/-- `BackupManager._cleanup_old_backups` with retention `m`
(`max_backups`): if more than `m` backups are listed, delete every entry
beyond the first `m`; deletion failures are skipped (deletion always
succeeds in the model). -/
def cleanup_old_backupsM (m : Nat) (fs : FileSystem) (file : Pth) : FileSystem :=
  let backups := list_backupsM fs file
  if m < backups.length then
    (backups.drop m).foldl (fun acc b => removeFile acc b.path) fs
  else fs

/-- `BackupManager.create_backup` with retention `m` and timestamp `now`
(`int(time.time())` in the source): require the source file to exist,
copy it to the generated backup path, then prune old generations. -/
def create_backupM (m : Nat) (fs : FileSystem) (file : Pth) (now : Nat) :
    Except Unit (Pth × FileSystem) :=
  match getFile fs file with
  | none => .error ()
  | some content =>
    .ok (mkBackupPath file now,
      cleanup_old_backupsM m (setFile fs (mkBackupPath file now) content) file)

/-- `BackupManager.cleanup_all_backups`: delete every listed backup,
returning the count of deletions. -/
def cleanup_all_backupsM (fs : FileSystem) (file : Pth) : Nat × FileSystem :=
  let backups := list_backupsM fs file
  (backups.length, backups.foldl (fun acc b => removeFile acc b.path) fs)

theorem getFile_setFile (fs : FileSystem) (q : Pth) (c : List Nat) (p : Pth) :
    getFile (setFile fs q c) p = if p = q then some c else getFile fs p := by
  induction fs with
  | nil =>
    by_cases h : p = q
    · subst h; simp [setFile, getFile]
    · have h2 : ¬ q = p := fun he => h he.symm
      simp [setFile, getFile, h, h2]
  | cons e rest ih =>
    by_cases he : e.1 = q
    · by_cases h : p = q
      · subst h; simp [setFile, getFile, he]
      · have h2 : ¬ q = p := fun x => h x.symm
        have h3 : ¬ e.1 = p := by rw [he]; exact h2
        simp [setFile, getFile, he, h, h2, h3]
    · by_cases hp : e.1 = p
      · have h4 : ¬ p = q := by rw [← hp]; exact he
        simp [setFile, getFile, he, hp, h4]
      · simp [setFile, getFile, he, hp, ih]

theorem getFile_removeFile (fs : FileSystem) (q p : Pth) :
    getFile (removeFile fs q) p = if p = q then none else getFile fs p := by
  induction fs with
  | nil =>
    by_cases h : p = q <;> simp [removeFile, getFile, h]
  | cons e rest ih =>
    by_cases he : e.1 = q
    · by_cases h : p = q
      · subst h; simp [removeFile, getFile, he, ih]
      · have h2 : ¬ q = p := fun x => h x.symm
        have h3 : ¬ e.1 = p := by rw [he]; exact h2
        simp [removeFile, getFile, he, h, h2, h3, ih]
    · by_cases hp : e.1 = p
      · have h4 : ¬ p = q := by rw [← hp]; exact he
        simp [removeFile, getFile, he, hp, h4]
      · simp [removeFile, getFile, he, hp, ih]

theorem getFile_foldl_remove (L : List BackupInfoM) (fs : FileSystem) (p : Pth) :
    getFile (L.foldl (fun acc b => removeFile acc b.path) fs) p =
      if p ∈ L.map (fun b => b.path) then none else getFile fs p := by
  induction L generalizing fs with
  | nil => simp
  | cons b t ih =>
    simp only [List.foldl_cons, ih, List.map_cons, List.mem_cons]
    by_cases hp : p = b.path
    · by_cases ht : p ∈ t.map (fun b => b.path) <;>
        simp [hp, ht, getFile_removeFile]
    · by_cases ht : p ∈ t.map (fun b => b.path) <;>
        simp [hp, ht, getFile_removeFile]

/-- Every entry returned by `list_backups` lies in the file's `.backups`
directory and its name matches the backup glob pattern. -/
theorem mem_list_backups {fs : FileSystem} {file : Pth} {b : BackupInfoM}
    (h : b ∈ list_backupsM fs file) :
    b.path.dir = backupDirOf file ∧
    globMatchB (baseNameOf file.name) b.path.name = true := by
  simp only [list_backupsM] at h
  rw [List.mem_insertionSort] at h
  rcases List.mem_filterMap.mp h with ⟨n, hn, hf⟩
  rcases List.mem_filter.mp hn with ⟨_, hglob⟩
  split at hf
  · split at hf
    · simp only [Option.some.injEq] at hf
      subst hf
      exact ⟨rfl, hglob⟩
    · cases hf
  · cases hf

/-- The file name is not rewritten when a backup is created: `getFile`
after `create_backup` at the match-success stage. -/
theorem create_backupM_eq {fs : FileSystem} {file : Pth} {content : List Nat}
    (m now : Nat) (hgf : getFile fs file = some content) :
    create_backupM m fs file now =
      .ok (mkBackupPath file now,
        cleanup_old_backupsM m (setFile fs (mkBackupPath file now) content) file) := by
  unfold create_backupM
  rw [hgf]

/-- `_cleanup_old_backups` either leaves a path's content unchanged or
deletes a listed backup (inside `.backups`, matching the glob). -/
theorem cleanup_old_frame (m : Nat) (fs : FileSystem) (file : Pth) (p : Pth) :
    getFile (cleanup_old_backupsM m fs file) p = getFile fs p ∨
      (getFile (cleanup_old_backupsM m fs file) p = none ∧
        p.dir = backupDirOf file ∧
        globMatchB (baseNameOf file.name) p.name = true) := by
  rw [cleanup_old_backupsM]
  split
  · rw [getFile_foldl_remove]
    by_cases hp : p ∈ ((list_backupsM fs file).drop m).map (fun b => b.path)
    · right
      refine ⟨by rw [if_pos hp], ?_⟩
      rcases List.mem_map.mp hp with ⟨b, hb, hbp⟩
      have hbl : b ∈ list_backupsM fs file := List.drop_subset m _ hb
      rw [← hbp]
      exact mem_list_backups hbl
    · left; rw [if_neg hp]
  · left; rfl

/-- `cleanup_all_backups` either leaves a path's content unchanged or
deletes a listed backup. -/
theorem cleanup_all_frame (fs : FileSystem) (file : Pth) (p : Pth) :
    getFile (cleanup_all_backupsM fs file).2 p = getFile fs p ∨
      (getFile (cleanup_all_backupsM fs file).2 p = none ∧
        p.dir = backupDirOf file ∧
        globMatchB (baseNameOf file.name) p.name = true) := by
  have hunfold : (cleanup_all_backupsM fs file).2 =
      (list_backupsM fs file).foldl (fun acc b => removeFile acc b.path) fs := rfl
  rw [hunfold, getFile_foldl_remove]
  by_cases hp : p ∈ (list_backupsM fs file).map (fun b => b.path)
  · right
    refine ⟨by rw [if_pos hp], ?_⟩
    rcases List.mem_map.mp hp with ⟨b, hb, hbp⟩
    rw [← hbp]
    exact mem_list_backups hb
  · left; rw [if_neg hp]

theorem dir_ne_backupDir (file : Pth) : file.dir ≠ backupDirOf file := by
  intro h
  have := congrArg List.length h
  simp [backupDirOf] at this

theorem create_backupM_none {fs : FileSystem} {file : Pth} (m now : Nat)
    (hgf : getFile fs file = none) :
    create_backupM m fs file now = .error () := by
  unfold create_backupM
  rw [hgf]

/-- Claim C10: `create_backup` (with its post-copy pruning) and
`cleanup_all_backups` never modify or delete the original file or any
file outside the sibling `.backups` directory — the only file created is
the new backup inside `.backups`, and every file deleted lies inside
`.backups` and matches the backup naming pattern for that path. -/
theorem c10_backup_frame (m : Nat) (fs : FileSystem) (file : Pth) (now : Nat) :
    (∀ bp fs2, create_backupM m fs file now = .ok (bp, fs2) →
      bp.dir = backupDirOf file ∧
      getFile fs2 file = getFile fs file ∧
      (∀ p : Pth, p.dir ≠ backupDirOf file → getFile fs2 p = getFile fs p) ∧
      (∀ p : Pth, getFile fs p = none → getFile fs2 p ≠ none → p = bp) ∧
      (∀ p : Pth, getFile fs p ≠ none → getFile fs2 p = none →
        p.dir = backupDirOf file ∧
        globMatchB (baseNameOf file.name) p.name = true)) ∧
    (∀ p : Pth, p.dir ≠ backupDirOf file →
      getFile (cleanup_all_backupsM fs file).2 p = getFile fs p) ∧
    (∀ p : Pth, getFile fs p = none → getFile (cleanup_all_backupsM fs file).2 p = none) ∧
    (∀ p : Pth, getFile fs p ≠ none → getFile (cleanup_all_backupsM fs file).2 p = none →
      p.dir = backupDirOf file ∧
      globMatchB (baseNameOf file.name) p.name = true) := by
  refine ⟨?_, ?_, ?_, ?_⟩
  · intro bp fs2 hok
    cases hgf : getFile fs file with
    | none => rw [create_backupM_none m now hgf] at hok; cases hok
    | some content =>
      rw [create_backupM_eq m now hgf] at hok
      simp only [Except.ok.injEq, Prod.mk.injEq] at hok
      obtain ⟨rfl, rfl⟩ := hok
      have hframe : ∀ p : Pth, p.dir ≠ backupDirOf file →
          getFile (cleanup_old_backupsM m
            (setFile fs (mkBackupPath file now) content) file) p = getFile fs p := by
        intro p hdir
        rcases cleanup_old_frame m (setFile fs (mkBackupPath file now) content) file p
          with h | h
        · have hne : ¬ p = mkBackupPath file now := fun x => hdir (by rw [x]; rfl)
          rw [h, getFile_setFile, if_neg hne]
        · exact absurd h.2.1 hdir
      refine ⟨rfl, (hframe file (dir_ne_backupDir file)).trans hgf, hframe, ?_, ?_⟩
      · intro p hnone hsome
        by_contra hne
        rcases cleanup_old_frame m (setFile fs (mkBackupPath file now) content) file p
          with h | h
        · rw [h, getFile_setFile, if_neg hne] at hsome
          exact hsome hnone
        · exact hsome h.1
      · intro p hsome hnone2
        rcases cleanup_old_frame m (setFile fs (mkBackupPath file now) content) file p
          with h | h
        · rw [h, getFile_setFile] at hnone2
          by_cases hpb : p = mkBackupPath file now
          · rw [if_pos hpb] at hnone2; cases hnone2
          · rw [if_neg hpb] at hnone2; exact absurd hnone2 hsome
        · exact h.2
  · intro p hdir
    rcases cleanup_all_frame fs file p with h | h
    · exact h
    · exact absurd h.2.1 hdir
  · intro p hnone
    rcases cleanup_all_frame fs file p with h | h
    · rw [h, hnone]
    · exact h.1
  · intro p hsome hnone
    rcases cleanup_all_frame fs file p with h | h
    · rw [h] at hnone; exact absurd hnone hsome
    · exact h.2

/-- Concrete file and filesystem for the frame witness. -/
def c10File : Pth := ⟨["w"], "m9.gma.json"⟩

def c10Fs : FileSystem := [(c10File, [9])]

theorem c10_backup_frame_witness :
    create_backupM 5 c10Fs c10File 100 =
      .ok (mkBackupPath c10File 100,
        cleanup_old_backupsM 5 (setFile c10Fs (mkBackupPath c10File 100) [9]) c10File) ∧
    getFile (cleanup_old_backupsM 5
        (setFile c10Fs (mkBackupPath c10File 100) [9]) c10File) c10File =
      getFile c10Fs c10File :=
  ⟨rfl,
    ((c10_backup_frame 5 c10Fs c10File 100).1 (mkBackupPath c10File 100)
      (cleanup_old_backupsM 5 (setFile c10Fs (mkBackupPath c10File 100) [9]) c10File)
      rfl).2.1⟩

/-- Drive `create_backup` over a list of timestamps, keeping the
resulting filesystem. -/
def createManyBackups (m : Nat) (fs : FileSystem) (file : Pth) : List Nat → FileSystem
  | [] => fs
  | t :: ts =>
    match create_backupM m fs file t with
    | .ok r => createManyBackups m r.2 file ts
    | .error _ => createManyBackups m fs file ts

def c1File : Pth := ⟨["d"], "m1.gma.json"⟩

def c1Fs : FileSystem := [(c1File, [1, 2, 3])]

/-- Claim C1 evaluated at its failing input: with retention 3, four
`create_backup` calls at the distinct timestamps 100, 200, 300, 400
leave four backup files in `.backups` — not three — because
`_extract_timestamp_from_backup` cannot parse any generated backup name
(`float('100.gma')` raises), so `list_backups` is always empty and
pruning never fires. -/
theorem c1_retention_bug :
    (listDir (createManyBackups 3 c1Fs c1File [100, 200, 300, 400])
      (backupDirOf c1File)).length = 4 ∧
    list_backupsM (createManyBackups 3 c1Fs c1File [100, 200, 300, 400]) c1File = [] :=
  ⟨by decide, by decide⟩

def c7File : Pth := ⟨["d"], "test_macro.gma.json"⟩

def c7Fs : FileSystem :=
  [(c7File, [1]),
   (⟨["d", ".backups"], "test_macro_backup_1700000000.gma.json"⟩, [1])]

/-- Claim C7 evaluated at its failing input (the repository's own
integration-test scenario): the backup name matches the glob pattern and
carries the parseable timestamp token `1700000000`, yet
`_extract_timestamp_from_backup` rejects it (`Path.stem` keeps the inner
`.gma` suffix, so `float('1700000000.gma')` raises) and `list_backups`
returns the empty list instead of the one entry. -/
theorem c7_list_backups_bug :
    globMatchB (baseNameOf "test_macro.gma.json")
      "test_macro_backup_1700000000.gma.json" = true ∧
    extract_timestamp "test_macro_backup_1700000000.gma.json" = none ∧
    list_backupsM c7Fs c7File = [] :=
  ⟨by decide, by decide, by decide⟩
